import Mathlib

/-!
Verification development for the rna repository.

The repository consists of an esbuild emit plugin
(src/packages/esbuild-plugin-emit/lib/index.js), a SASS import resolver and a
source-map-aware transform pipeline
(src/packages/postcss-dart-sass/lib/sassResolver.js, which holds both the
resolver and the estransform pipeline), and a thin CLI front end.

The JavaScript functions are embedded shallowly below.  Strings are Lean
Strings manipulated through their underlying character lists; external
library calls (JSON.parse, fs.readFile, Buffer base64 encoding, the
@parcel/source-map merge engine, the host module resolution routine) are
passed in as explicit function parameters.  Functions of the repository that
live in packages not included under src (the search-parameter helpers of the
node-resolve package) are modelled from the specification, as marked in the
corresponding doc comments.
-/

namespace Rna

/-! ## Character-list helpers -/

/-- Split a character list on every occurrence of a separator character,
mirroring the JavaScript `String.prototype.split` with a one-character
separator. -/
def splitOnChar (sep : Char) : List Char → List (List Char)
  | [] => [[]]
  | c :: cs =>
    if c = sep then [] :: splitOnChar sep cs
    else
      match splitOnChar sep cs with
      | [] => [[c]]
      | p :: ps => (c :: p) :: ps

/-- The character list after the first occurrence of a separator, if any. -/
def afterChar (sep : Char) : List Char → Option (List Char)
  | [] => none
  | c :: cs => if c = sep then some cs else afterChar sep cs

/-- Whether a character occurs in the list. -/
def hasCharL (sep : Char) (l : List Char) : Bool :=
  l.any (fun c => c = sep)

/-- Strip a literal prefixed pattern from a character list, returning the
remainder on success. -/
def dropLitPre : List Char → List Char → Option (List Char)
  | [], l => some l
  | _ :: _, [] => none
  | p :: ps, c :: cs => if p = c then dropLitPre (p :: ps).tail cs else none

/-- JavaScript whitespace class used by `trimEnd` and the `\s` regex class
(restricted to the ASCII members that can occur here). -/
def isWS (c : Char) : Bool :=
  c = ' ' || c = '\t' || c = '\n' || c = '\r' || c = '\x0b' || c = '\x0c'

/-- Model of `String.prototype.trimEnd`. -/
def trimEndL (l : List Char) : List Char :=
  (l.reverse.dropWhile isWS).reverse

/-! ## Node path model (POSIX flavour)

Models of the Node `path` functions used by the repository: `basename`,
`extname`, `dirname`, `join` (two arguments).  They follow the POSIX
behaviour of Node for the inputs that arise here. -/

/-- Drop trailing slash characters. -/
def dropTrailSlash (l : List Char) : List Char :=
  (l.reverse.dropWhile (fun c => c = '/')).reverse

/-- Model of `path.basename`: the last path segment, ignoring trailing
slashes. -/
def basenameL (l : List Char) : List Char :=
  ((dropTrailSlash l).reverse.takeWhile (fun c => c ≠ '/')).reverse

/-- Model of `path.extname`: the trailing extension of the basename, empty
when the basename has no dot, is made only of dots, or has its only dot in
front. -/
def extnameL (l : List Char) : List Char :=
  let b := basenameL l
  if b.all (fun c => c = '.') then []
  else
    let r := b.reverse
    let pre := r.takeWhile (fun c => c ≠ '.')
    if pre.length = r.length then []
    else if pre.length + 1 = r.length then []
    else '.' :: pre.reverse

/-- Model of `path.dirname`: everything before the last path segment. -/
def dirnameL (l : List Char) : List Char :=
  let t := dropTrailSlash l
  if hasCharL '/' t = false then
    if l.head? = some '/' then ['/'] else ['.']
  else
    let d := dropTrailSlash ((t.reverse.dropWhile (fun c => c ≠ '/')).reverse)
    if d.isEmpty then ['/'] else d

/-- One step of path normalization over the list of segments: empty and dot
segments vanish, a dot-dot segment pops the previous one when possible. -/
def normStep (isAbs : Bool) (acc : List (List Char)) (seg : List Char) : List (List Char) :=
  if seg.isEmpty ∨ seg = ['.'] then acc
  else if seg = ['.', '.'] then
    match acc with
    | s :: rest => if s = ['.', '.'] then seg :: acc else rest
    | [] => if isAbs then [] else [seg]
  else seg :: acc

/-- Model of the normalization performed by `path.join`: collapse repeated
slashes, resolve dot and dot-dot segments. -/
def normalizeL (l : List Char) : List Char :=
  let isAbs := l.head? = some '/'
  let segs := ((splitOnChar '/' l).foldl (normStep isAbs) []).reverse
  let body := (segs.intersperse ['/']).flatten
  if isAbs then '/' :: body else if body.isEmpty then ['.'] else body

/-- Model of the two-argument `path.join`. -/
def join2L (a b : List Char) : List Char :=
  let joined := if a.isEmpty then b else if b.isEmpty then a else a ++ '/' :: b
  if joined.isEmpty then ['.'] else normalizeL joined

/-! ### String wrappers -/

/-- First character of a string, mirroring the JavaScript index access
`s[0]` (undefined on the empty string). -/
def firstChar (s : String) : Option Char := s.data.head?

/-- Model of `path.basename` on strings. -/
def basename (s : String) : String := ⟨basenameL s.data⟩

/-- Model of `path.extname` on strings. -/
def extname (s : String) : String := ⟨extnameL s.data⟩

/-- Model of `path.dirname` on strings. -/
def dirname (s : String) : String := ⟨dirnameL s.data⟩

/-- Model of the two-argument `path.join` on strings. -/
def join2 (a b : String) : String := ⟨join2L a.data b.data⟩

/-- Whether a string ends with the given suffix. -/
def endsWithS (s suffix : String) : Bool := suffix.data.isSuffixOf s.data

/-- Whether a string starts with the given prefixed pattern. -/
def startsWithS (s pre : String) : Bool := pre.data.isPrefixOf s.data

/-- Drop the first `n` characters of a string. -/
def dropS (s : String) (n : Nat) : String := ⟨s.data.drop n⟩

/-- Number of slash-separated segments, mirroring the length of the
JavaScript `url.split(sep)` array for a one-character separator. -/
def segCount (s : String) : Nat := (splitOnChar '/' s.data).length

/-! ## Search-parameter helpers of the node-resolve package

The esbuild-plugin-emit module imports `appendSearchParam`, `hasSearchParam`,
`getSearchParam` and `getSearchParams` from the node-resolve package of the
same repository; that package is not included under src. -/

/-- The key of one query-string parameter segment: the characters before the
first equals sign. -/
def paramKey (p : List Char) : List Char := p.takeWhile (fun c => c ≠ '=')

/-- Modelled from the spec: `hasSearchParam` of the node-resolve package
(missing from src).  Per the specification, import specifiers carry
query-string markers such as `emit=file` after a question mark; a path has a
given search parameter when some ampersand-separated segment of its query
string has that parameter name as its key. -/
def hasParamL (source name : List Char) : Bool :=
  match afterChar '?' source with
  | none => false
  | some q => (splitOnChar '&' q).any (fun p => paramKey p = name)

/-- Modelled from the spec: `appendSearchParam` of the node-resolve package
(missing from src).  Per the specification it appends a `name=value`
query-string marker to the path, introducing the question mark when the path
has none yet and separating with an ampersand otherwise. -/
def appendParamL (source name value : List Char) : List Char :=
  source ++ (if hasCharL '?' source then ['&'] else ['?']) ++ name ++ '=' :: value

/-- String form of `hasParamL`. -/
def hasSearchParam (source name : String) : Bool :=
  hasParamL source.data name.data

/-- String form of `appendParamL`. -/
def appendSearchParam (source name value : String) : String :=
  ⟨appendParamL source.data name.data value.data⟩

/-! ## esbuild-plugin-emit -/

/-- Embedding of `emitFile` (src/packages/esbuild-plugin-emit/lib/index.js,
lines 29 to 35): return the path unchanged when it already carries an `emit`
search parameter, otherwise append `emit=file`. -/
def emitFile (source : String) : String :=
  if hasSearchParam source "emit" then source
  else appendSearchParam source "emit" "file"

/-- Embedding of `emitChunk` (src/packages/esbuild-plugin-emit/lib/index.js,
lines 42 to 44): append `emit=chunk` and then a `transform` parameter whose
value is the serialized options blob (the JSON serialization being external,
the already serialized blob is the `options` argument here). -/
def emitChunk (source options : String) : String :=
  appendSearchParam (appendSearchParam source "emit" "chunk") "transform" options

/-- One entry of the `outputs` object of an esbuild metafile, as read by the
emit-chunk load hook: only the `entryPoint` field is consulted. -/
structure OutputMeta where
  entryPoint : Option String
deriving DecidableEq, Repr

/-- Lookup of `outputs[key].entryPoint` where the metafile `outputs` object
is modelled as an association list with unique keys. -/
def epOf (outputs : List (String × OutputMeta)) (key : String) : Option String :=
  match outputs.find? (fun pr => pr.1 = key) with
  | some pr => pr.2.entryPoint
  | none => none

/-- JavaScript truthiness of `outputs[output].entryPoint`: present and not
the empty string. -/
def truthyEP : Option String → Bool
  | some e => !(e = "")
  | none => false

/-- The predicate of the `find` call of the load hook:
`filePath === path.resolve(outputs[output].entryPoint)`, with `path.resolve`
abstracted as the `resolve` parameter. -/
def epMatches (resolve : String → String) (outputs : List (String × OutputMeta))
    (filePath key : String) : Bool :=
  match epOf outputs key with
  | some e => filePath = resolve e
  | none => false

/-- JavaScript `a || b` on string options: the left value unless it is
absent or the empty string. -/
def jsOrStr (a b : Option String) : Option String :=
  match a with
  | some s => if s = "" then b else some s
  | none => b

/-- Embedding of the output selection of the emit-chunk load hook
(src/packages/esbuild-plugin-emit/lib/index.js, lines 141 to 148): filter the
metafile output keys to those not ending in `.map` and reporting an entry
point, find the first whose resolved entry point equals the loaded path, and
fall back to the first output key via the JavaScript or-operator. -/
def selectOutput (resolve : String → String) (outputs : List (String × OutputMeta))
    (filePath : String) : Option String :=
  let outputFiles := outputs.map Prod.fst
  jsOrStr
    (((outputFiles.filter (fun o => !(endsWithS o ".map"))).filter
        (fun o => truthyEP (epOf outputs o))).find?
      (fun o => epMatches resolve outputs filePath o))
    outputFiles.head?

/-- The selection rule as the specification words it: among all outputs, the
first one that is not a map, reports an entry point, and whose entry point
resolves to the loaded path; the first output key when none matches. -/
def specSelectOutput (resolve : String → String) (outputs : List (String × OutputMeta))
    (filePath : String) : Option String :=
  match (outputs.map Prod.fst).find?
      (fun o => (!(endsWithS o ".map") && truthyEP (epOf outputs o))
        && epMatches resolve outputs filePath o) with
  | some r => some r
  | none => (outputs.map Prod.fst).head?

/-! ## SASS import resolver (src/packages/postcss-dart-sass/lib/sassResolver.js) -/

/-- Embedding of `alternatives` (sassResolver.js, lines 9 to 28): when the
url has no extension, remap it with every configured style extension (the
`CSS_EXTENSIONS` list of the node-resolve package is the `exts` parameter);
when the basename of the url does not start with an underscore, additionally
push, after the whole initial list, the underscore-led partial form of every
initial candidate. -/
def alternatives (exts : List String) (url : String) : List String :=
  let results := if extname url ≠ "" then [url] else exts.map (fun ext => url ++ ext)
  if firstChar (basename url) ≠ some '_' then
    results ++ results.map (fun r => join2 (dirname r) ("_" ++ basename r))
  else results

/-- Embedding of the candidate-list computation of `nodeResolver`
(sassResolver.js, lines 51 to 59): a single-segment url and a two-segment
scoped package name are checked as-is; any other url goes through
`alternatives`. -/
def candidates (exts : List String) (url : String) : List String :=
  if segCount url = 1 then [url]
  else if firstChar url = some '@' ∧ segCount url = 2 then [url]
  else alternatives exts url

/-- Embedding of the prefixed-marker normalization of `nodeResolver`
(sassResolver.js, lines 44 to 47): strip a leading tilde or `package:`
marker. -/
def stripTilde (url : String) : String :=
  if startsWithS url "~" then dropS url 1
  else if startsWithS url "package:" then dropS url 8
  else url

/-- Embedding of the candidate loop of `nodeResolver` (sassResolver.js,
lines 60 to 73).  The external `styleResolve` routine is the parameter `f`;
`f c prev = none` models a thrown (and silently caught) resolution error,
while a returned empty string is falsy and keeps the loop going after
overwriting the url, exactly as the JavaScript assignment before the break
test does. -/
def resolveLoop (f : String → String → Option String) (prev : String) :
    List String → String → String
  | [], url => url
  | c :: cs, url =>
    match f c prev with
    | none => resolveLoop f prev cs url
    | some u => if u = "" then resolveLoop f prev cs u else u

/-- The absolute url a call of the resolver settles on: marker stripping,
candidate generation, then the resolution loop. -/
def resolveUrl (f : String → String → Option String) (exts : List String)
    (url prev : String) : String :=
  resolveLoop f prev (candidates exts (stripTilde url)) (stripTilde url)

/-- The importer result shape returned to the SASS engine: either a file
reference or literal contents. -/
structure ImporterResult where
  file : Option String
  contents : Option String
deriving DecidableEq, Repr

/-- Embedding of `nodeResolver` (sassResolver.js, lines 43 to 87).  The
closure-captured `resolved` array is threaded explicitly: the function
receives the current list and returns the updated one next to the importer
result.  A url already in the list yields empty contents; otherwise the url
is recorded and returned as a file reference. -/
def nodeResolver (f : String → String → Option String) (exts : List String)
    (resolved : List String) (url prev : String) : ImporterResult × List String :=
  let url1 := stripTilde url
  let url2 := resolveLoop f prev (candidates exts url1) url1
  if url2 ∈ resolved then
    (⟨none, some ""⟩, resolved)
  else
    (⟨some url2, none⟩, resolved ++ [url2])

/-! ## estransform pipeline (second module of sassResolver.js) -/

/-- The source-map value shape of the estransform module (its `SourceMap`
typedef, lines 98 to 106 of the concatenated file). -/
structure SourceMap where
  version : Option Nat := none
  sources : List String := []
  names : List String := []
  sourceRoot : Option String := none
  sourcesContent : Option (List String) := none
  mappings : String := ""
  file : Option String := none
deriving DecidableEq, Repr

/-- Matcher for the split regex of `loadSourcemap`: at the current position,
consume a newline, two slashes and a hash, any run of whitespace, and the
literal `sourceMappingURL=`, returning the remainder on success. -/
def matchSM (l : List Char) : Option (List Char) :=
  match dropLitPre ['\n', '/', '/', '#'] l with
  | none => none
  | some r => dropLitPre "sourceMappingURL=".data (r.dropWhile isWS)

/-- First occurrence of the source-map comment pattern: the characters
before it and the characters after the consumed pattern. -/
def findSM : List Char → Option (List Char × List Char)
  | [] => none
  | c :: cs =>
    match matchSM (c :: cs) with
    | some rest => some ([], rest)
    | none => (findSM cs).map (fun pr => (c :: pr.1, pr.2))

/-- The first two elements of the JavaScript
`contents.split(<sourceMappingURL pattern>)`: the code before the first
match and, when a match exists, the map url running up to the next match or
the end. -/
def splitSM (l : List Char) : List Char × Option (List Char) :=
  match findSM l with
  | none => (l, none)
  | some (code, rest) =>
    match findSM rest with
    | none => (code, some rest)
    | some (m, _) => (code, some m)

/-- The element after the first comma of the JavaScript
`mapUrl.split(',')[1]`, absent when there is no comma. -/
def commaTail (l : List Char) : Option (List Char) :=
  match splitOnChar ',' l with
  | _ :: t :: _ => some t
  | _ => none

/-- Embedding of `loadSourcemap` (estransform module, lines 120 to 149).
External effects are parameters: `parse` models `JSON.parse` of a map string
(`none` for a thrown parse error), `readF dir url` models
`readFile(path.resolve(dir, url))` (`none` for a read error), and `b64enc`
models the `Buffer` base64 re-encoding applied to the data-uri payload.
Every thrown error inside the `try` lands in the silent catch and falls
through to the `(code, no map)` result. -/
def loadSourcemap (parse : String → Option SourceMap) (readF : String → String → Option String)
    (b64enc : String → String) (contents : String) (filePath : Option String) :
    String × Option SourceMap :=
  let parts := splitSM (trimEndL contents.data)
  let code : String := ⟨parts.1⟩
  match parts.2 with
  | none => (code, none)
  | some mapUrlL =>
    if mapUrlL = [] then (code, none)
    else
      let mapUrl : String := ⟨mapUrlL⟩
      if startsWithS mapUrl "data:" then
        match commaTail mapUrlL with
        | none => (code, none)
        | some payload =>
          match parse (b64enc ⟨payload⟩) with
          | some m => (code, some m)
          | none => (code, none)
      else
        match filePath with
        | some fp =>
          match readF (dirname fp) mapUrl with
          | none => (code, none)
          | some content =>
            match parse content with
            | some m => (code, some m)
            | none => (code, none)
        | none => (code, none)

/-- The code component `loadSourcemap` returns: the contents with a
recognized source-map trailer stripped. -/
def smCode (contents : String) : String :=
  ⟨(splitSM (trimEndL contents.data)).1⟩

/-- The pipeline state (estransform module, lines 266 to 272). -/
structure Pipeline where
  contents : String
  code : String
  sourceMaps : List (Option SourceMap)
  target : String
  loader : String
deriving DecidableEq, Repr

/-- Embedding of `createPipeline` (estransform module, lines 278 to 300):
load any input source map, record it when present, and classify target and
loader from the source file extension. -/
def createPipeline (parse : String → Option SourceMap) (readF : String → String → Option String)
    (b64enc : String → String) (contents : String) (source : Option String) : Pipeline :=
  let res := loadSourcemap parse readF b64enc contents source
  let sourceMaps : List (Option SourceMap) :=
    match res.2 with
    | some m => [some m]
    | none => []
  let target :=
    match source with
    | some s => if endsWithS s ".ts" || endsWithS s ".tsx" then "typescript" else "unknown"
    | none => "unknown"
  let loader :=
    match source with
    | some s => if endsWithS s ".ts" then "ts" else "tsx"
    | none => "tsx"
  { contents := contents, code := res.1, sourceMaps := sourceMaps,
    target := target, loader := loader }

/-- The transform-result shape consumed and produced by the pipeline
(estransform module, lines 195 to 200). -/
structure TransformResult where
  code : String
  map : Option SourceMap
  loader : Option String := none
  target : Option String := none
deriving DecidableEq, Repr

/-- Embedding of `pipe` (estransform module, lines 307 to 322).  The inner
`transform` call builds its result with the external MagicString engine, so
the resulting `TransformResult` is taken as the argument `res`; `pipe` then
pushes the map and replaces the code only when the code changed, and
overwrites loader and target under JavaScript truthiness. -/
def pipeStep (p : Pipeline) (res : TransformResult) : Pipeline :=
  let p1 :=
    if res.code ≠ p.code then
      { p with sourceMaps := p.sourceMaps ++ [res.map], code := res.code }
    else p
  let p2 :=
    match res.loader with
    | some l => if l = "" then p1 else { p1 with loader := l }
    | none => p1
  match res.target with
  | some t => if t = "" then p2 else { p2 with target := t }
  | none => p2

/-- A sequence of pipe invocations, each consuming one transform result. -/
def pipeMany (p : Pipeline) (rs : List TransformResult) : Pipeline :=
  rs.foldl pipeStep p

/-- The three-valued `sourcemap` option of the transform options: absent map
generation, plain generation, or inline data-uri emission. -/
inductive SMOpt
  | off
  | on
  | inl
deriving DecidableEq, Repr

/-- Embedding of `inlineSourcemap` (estransform module, lines 328 to 330),
with the external JSON-plus-base64 serialization as the parameter
`stringify64`. -/
def inlineSourcemap (stringify64 : SourceMap → String) (code : String)
    (sourceMap : SourceMap) : String :=
  code ++ "\n//# sourceMappingURL=data:application/json;base64," ++ stringify64 sourceMap

/-- Embedding of `finalize` (estransform module, lines 337 to 371).  The
external merge engine behind `mergeSourcemaps` is the parameter `merge`.
Fewer than two collected maps, unchanged text, or disabled map generation
short-circuit to the bare code with no map; otherwise the non-null maps are
merged, the file field is stamped or cleared, the sources content optionally
stripped, and the map inlined when requested. -/
def finalize (merge : List SourceMap → Option SourceMap) (stringify64 : SourceMap → String)
    (p : Pipeline) (source : Option String) (sourcemap : SMOpt) (sourcesContent : Bool) :
    TransformResult :=
  if p.sourceMaps.length < 2 ∨ p.code = p.contents ∨ sourcemap = SMOpt.off then
    { code := p.code, map := none, loader := some p.loader }
  else
    let maps := p.sourceMaps.filterMap id
    match merge maps with
    | none => { code := p.code, map := none, loader := some p.loader }
    | some finalMap =>
      let finalMap1 :=
        match source with
        | some s => { finalMap with file := some s }
        | none => { finalMap with file := none }
      let finalMap2 :=
        if sourcesContent then finalMap1 else { finalMap1 with sourcesContent := none }
      { code := if sourcemap = SMOpt.inl then inlineSourcemap stringify64 p.code finalMap2
          else p.code,
        map := some finalMap2,
        loader := some p.loader }

/-! ## Helper lemmas -/

/-- All five fields of the pipeline after one pipe step, in closed form. -/
theorem pipeStep_fields (p : Pipeline) (res : TransformResult) :
    (pipeStep p res).contents = p.contents
      ∧ (pipeStep p res).code = (if res.code = p.code then p.code else res.code)
      ∧ (pipeStep p res).sourceMaps
          = (if res.code = p.code then p.sourceMaps else p.sourceMaps ++ [res.map])
      ∧ (pipeStep p res).loader
          = (match res.loader with
              | some l => if l = "" then p.loader else l
              | none => p.loader)
      ∧ (pipeStep p res).target
          = (match res.target with
              | some t => if t = "" then p.target else t
              | none => p.target) := by
  unfold pipeStep
  cases hl : res.loader <;> cases ht : res.target <;>
    by_cases h : res.code = p.code <;>
      simp [h, hl, ht] <;> (try split) <;> (try split) <;> simp_all

/-- The short-circuit branch of `finalize`. -/
theorem finalize_early (merge : List SourceMap → Option SourceMap)
    (st64 : SourceMap → String) (p : Pipeline) (source : Option String)
    (smopt : SMOpt) (sc : Bool)
    (h : p.sourceMaps.length < 2 ∨ p.code = p.contents ∨ smopt = SMOpt.off) :
    finalize merge st64 p source smopt sc
      = { code := p.code, map := none, loader := some p.loader } := by
  unfold finalize
  rw [if_pos h]

/-- The first component of `loadSourcemap` is always the trailer-stripped
code. -/
theorem loadSourcemap_fst (parse : String → Option SourceMap)
    (readF : String → String → Option String) (b64enc : String → String)
    (contents : String) (filePath : Option String) :
    (loadSourcemap parse readF b64enc contents filePath).1 = smCode contents := by
  unfold loadSourcemap smCode
  dsimp only
  repeat' split
  all_goals rfl

/-- `createPipeline` collects at most the one input map. -/
theorem createPipeline_sourceMaps_short (parse : String → Option SourceMap)
    (readF : String → String → Option String) (b64enc : String → String)
    (contents : String) (source : Option String) :
    (createPipeline parse readF b64enc contents source).sourceMaps.length < 2 := by
  unfold createPipeline
  cases h : (loadSourcemap parse readF b64enc contents source).2 <;> simp [h]

/-- A chain of pipe steps none of which changes the text preserves the code,
the map list and the contents. -/
theorem pipeMany_noop (rs : List TransformResult) (p : Pipeline)
    (h : ∀ r ∈ rs, r.code = p.code) :
    (pipeMany p rs).code = p.code ∧ (pipeMany p rs).sourceMaps = p.sourceMaps
      ∧ (pipeMany p rs).contents = p.contents := by
  induction rs generalizing p with
  | nil => exact ⟨rfl, rfl, rfl⟩
  | cons r rs ih =>
    have hr : r.code = p.code := h r (List.mem_cons_self r rs)
    obtain ⟨hc, hcode, hsm, _, _⟩ := pipeStep_fields p r
    have hstep_code : (pipeStep p r).code = p.code := by simp [hcode, hr]
    have hstep_sm : (pipeStep p r).sourceMaps = p.sourceMaps := by simp [hsm, hr]
    have hrest := ih (pipeStep p r)
      (fun r' hr' => by rw [h r' (List.mem_cons_of_mem r hr'), hstep_code])
    have hfold : pipeMany p (r :: rs) = pipeMany (pipeStep p r) rs := rfl
    rw [hfold]
    exact ⟨hrest.1.trans hstep_code, hrest.2.1.trans hstep_sm, hrest.2.2.trans hc⟩

/-! ## Claim theorems -/

/-- C4: for every pipeline and transform step result, `pipe` appends the new
source map to the map list and replaces the current text exactly when the
resulting text differs from the current text; a no-op step adds nothing to
the map chain. -/
theorem pipe_appends_map_iff_text_changed (p : Pipeline) (res : TransformResult) :
    (pipeStep p res).sourceMaps
        = (if res.code = p.code then p.sourceMaps else p.sourceMaps ++ [res.map])
      ∧ (pipeStep p res).code = (if res.code = p.code then p.code else res.code) :=
  ⟨(pipeStep_fields p res).2.2.1, (pipeStep_fields p res).2.1⟩

/-- C9: a pipe step whose resulting text equals the current text leaves the
code, the original contents and the source-map list unchanged, but still
overwrites the loader and target tags whenever the result reports them. -/
theorem pipe_noop_step_frame (p : Pipeline) (res : TransformResult)
    (h : res.code = p.code) :
    (pipeStep p res).code = p.code ∧ (pipeStep p res).contents = p.contents
      ∧ (pipeStep p res).sourceMaps = p.sourceMaps
      ∧ (∀ l, res.loader = some l → l ≠ "" → (pipeStep p res).loader = l)
      ∧ (∀ t, res.target = some t → t ≠ "" → (pipeStep p res).target = t) := by
  obtain ⟨hc, hcode, hsm, hld, htg⟩ := pipeStep_fields p res
  refine ⟨by simp [hcode, h], hc, by simp [hsm, h], ?_, ?_⟩
  · intro l hl hne
    simp [hld, hl, hne]
  · intro t ht hne
    simp [htg, ht, hne]

/-- Witness for C9 at a concrete no-op step reporting loader and target. -/
theorem pipe_noop_step_frame_witness :
    (pipeStep ⟨"c", "c", [], "unknown", "tsx"⟩
        ⟨"c", none, some "js", some "es2020"⟩).loader = "js"
      ∧ (pipeStep ⟨"c", "c", [], "unknown", "tsx"⟩
          ⟨"c", none, some "js", some "es2020"⟩).target = "es2020"
      ∧ (pipeStep ⟨"c", "c", [], "unknown", "tsx"⟩
          ⟨"c", none, some "js", some "es2020"⟩).sourceMaps = [] := by
  have h := pipe_noop_step_frame ⟨"c", "c", [], "unknown", "tsx"⟩
    ⟨"c", none, some "js", some "es2020"⟩ rfl
  exact ⟨h.2.2.2.1 "js" rfl (by decide), h.2.2.2.2 "es2020" rfl (by decide), h.2.2.1⟩

/-- The code field of a fresh pipeline is the trailer-stripped input. -/
theorem createPipeline_code (parse : String → Option SourceMap)
    (readF : String → String → Option String) (b64enc : String → String)
    (contents : String) (source : Option String) :
    (createPipeline parse readF b64enc contents source).code = smCode contents := by
  unfold createPipeline
  dsimp only
  exact loadSourcemap_fst parse readF b64enc contents source

/-- C3, counterexample: a pipeline created from contents that carry a
source-map trailer has its trailer stripped into the working code, so with
no step at all (hence no step changing the text) `finalize` returns the
stripped code, not the original text.  Here the referenced map file fails to
read, so no map is collected either. -/
theorem finalize_noop_original_text_counterexample :
    (finalize (fun _ => none) (fun _ => "")
        (createPipeline (fun _ => none) (fun _ _ => none) (fun s => s)
          "a\n//# sourceMappingURL=x.map" (some "/s.js"))
        (some "/s.js") SMOpt.on true).code = "a"
      ∧ (finalize (fun _ => none) (fun _ => "")
          (createPipeline (fun _ => none) (fun _ _ => none) (fun s => s)
            "a\n//# sourceMappingURL=x.map" (some "/s.js"))
          (some "/s.js") SMOpt.on true).map = none
      ∧ (createPipeline (fun _ => none) (fun _ _ => none) (fun s => s)
          "a\n//# sourceMappingURL=x.map" (some "/s.js")).contents
          = "a\n//# sourceMappingURL=x.map"
      ∧ ("a" : String) ≠ "a\n//# sourceMappingURL=x.map" := by
  refine ⟨by decide, by decide, by decide, by decide⟩

/-- C3, amended: whenever fewer than two maps were collected, or the current
text equals the original contents, or map generation is disabled, `finalize`
returns the current text unchanged with a null map; and for any pipeline in
which no step changed the text, `finalize` returns the initial code of the
pipeline — the original contents with any recognized source-map trailer
stripped — with a null map. -/
theorem finalize_short_circuit_and_noop_chain :
    (∀ (merge : List SourceMap → Option SourceMap) (st64 : SourceMap → String)
        (p : Pipeline) (source : Option String) (smopt : SMOpt) (sc : Bool),
      p.sourceMaps.length < 2 ∨ p.code = p.contents ∨ smopt = SMOpt.off →
      finalize merge st64 p source smopt sc
        = { code := p.code, map := none, loader := some p.loader })
    ∧ (∀ (merge : List SourceMap → Option SourceMap) (st64 : SourceMap → String)
        (parse : String → Option SourceMap) (readF : String → String → Option String)
        (b64enc : String → String) (contents : String) (source : Option String)
        (smopt : SMOpt) (sc : Bool) (rs : List TransformResult),
      (∀ r ∈ rs, r.code = (createPipeline parse readF b64enc contents source).code) →
      (finalize merge st64
          (pipeMany (createPipeline parse readF b64enc contents source) rs)
          source smopt sc).code = smCode contents
        ∧ (finalize merge st64
            (pipeMany (createPipeline parse readF b64enc contents source) rs)
            source smopt sc).map = none) := by
  constructor
  · intro merge st64 p source smopt sc h
    exact finalize_early merge st64 p source smopt sc h
  · intro merge st64 parse readF b64enc contents source smopt sc rs h
    obtain ⟨hcode, hsm, hcont⟩ :=
      pipeMany_noop rs (createPipeline parse readF b64enc contents source) h
    have hlen : (pipeMany (createPipeline parse readF b64enc contents source) rs).sourceMaps.length < 2 := by
      rw [hsm]
      exact createPipeline_sourceMaps_short parse readF b64enc contents source
    rw [finalize_early merge st64 _ source smopt sc (Or.inl hlen)]
    exact ⟨hcode.trans (createPipeline_code parse readF b64enc contents source), rfl⟩

/-- Witness for C3 amended at a concrete pipeline and an empty step list. -/
theorem finalize_short_circuit_and_noop_chain_witness :
    finalize (fun _ => none) (fun _ => "")
        ⟨"c", "c", [], "unknown", "tsx"⟩ none SMOpt.on true
        = { code := "c", map := none, loader := some "tsx" }
      ∧ (finalize (fun _ => none) (fun _ => "")
          (pipeMany (createPipeline (fun _ => none) (fun _ _ => none) (fun s => s) "c" none) [])
          none SMOpt.on true).code = smCode "c" := by
  refine ⟨finalize_short_circuit_and_noop_chain.1 _ _ _ _ _ _ (Or.inl (by decide)), ?_⟩
  exact (finalize_short_circuit_and_noop_chain.2 (fun _ => none) (fun _ => "")
    (fun _ => none) (fun _ _ => none) (fun s => s) "c" none SMOpt.on true []
    (by intro r hr; cases hr)).1

/-- C7: when loading the input source map fails — the map payload or file
does not parse (the `parse` model of `JSON.parse` always throws), or the
referenced map file cannot be read (the `readF` model of `readFile` always
throws, in the branch where the map url is not a data uri) — `loadSourcemap`
returns the trailer-stripped code with a null map instead of raising. -/
theorem loadSourcemap_failures_swallowed :
    ∀ (parse : String → Option SourceMap) (readF : String → String → Option String)
      (b64enc : String → String) (contents : String) (filePath : Option String),
      ((∀ s, parse s = none) →
        loadSourcemap parse readF b64enc contents filePath = (smCode contents, none))
      ∧ ((∀ d u, readF d u = none) →
        (∀ u, (splitSM (trimEndL contents.data)).2 = some u →
          startsWithS ⟨u⟩ "data:" = false) →
        loadSourcemap parse readF b64enc contents filePath = (smCode contents, none)) := by
  intro parse readF b64enc contents filePath
  constructor
  · intro h
    unfold loadSourcemap smCode
    dsimp only
    repeat' split
    all_goals simp_all
  · intro hr hd
    unfold loadSourcemap smCode
    dsimp only
    repeat' split
    all_goals simp_all

/-- Witness for C7: an always-failing parser and reader on contents that
reference a missing map file. -/
theorem loadSourcemap_failures_swallowed_witness :
    loadSourcemap (fun _ => none) (fun _ _ => none) (fun s => s)
        "x\n//# sourceMappingURL=m.map" (some "/d/f.js")
        = (smCode "x\n//# sourceMappingURL=m.map", none)
      ∧ smCode "x\n//# sourceMappingURL=m.map" = "x" := by
  refine ⟨(loadSourcemap_failures_swallowed (fun _ => none) (fun _ _ => none) (fun s => s)
      "x\n//# sourceMappingURL=m.map" (some "/d/f.js")).1 (fun s => rfl), by decide⟩

/-- When every candidate resolution throws, the loop leaves the url
untouched. -/
theorem resolveLoop_all_fail (f : String → String → Option String) (prev : String)
    (l : List String) (url : String) (h : ∀ c ∈ l, f c prev = none) :
    resolveLoop f prev l url = url := by
  induction l with
  | nil => rfl
  | cons c cs ih =>
    have hc : f c prev = none := h c (List.mem_cons_self c cs)
    unfold resolveLoop
    rw [hc]
    exact ih (fun c' h' => h c' (List.mem_cons_of_mem c h'))

/-- The resolver in terms of the url it settles on: a repeat yields the
dedupe signal, a fresh url is recorded and returned as a file reference. -/
theorem nodeResolver_eq (f : String → String → Option String) (exts : List String)
    (resolved : List String) (url prev : String) :
    nodeResolver f exts resolved url prev
      = if resolveUrl f exts url prev ∈ resolved
        then (⟨none, some ""⟩, resolved)
        else (⟨some (resolveUrl f exts url prev), none⟩,
          resolved ++ [resolveUrl f exts url prev]) := rfl

/-- C5: within one resolver instance, the first call settling on a given
resolved path returns it as a file reference, and a later call of the same
instance settling on the same path returns empty contents instead. -/
theorem resolver_dedupe (f : String → String → Option String) (exts : List String)
    (resolved : List String) (url prev url2 prev2 : String)
    (h1 : resolveUrl f exts url prev ∉ resolved)
    (h2 : resolveUrl f exts url2 prev2 = resolveUrl f exts url prev) :
    (nodeResolver f exts resolved url prev).1
        = ⟨some (resolveUrl f exts url prev), none⟩
      ∧ (nodeResolver f exts (nodeResolver f exts resolved url prev).2 url2 prev2).1
        = ⟨none, some ""⟩ := by
  rw [nodeResolver_eq f exts resolved url prev, if_neg h1]
  refine ⟨rfl, ?_⟩
  rw [nodeResolver_eq, h2, if_pos (by simp)]

/-- Witness for C5: the same import resolved twice by one instance. -/
theorem resolver_dedupe_witness :
    (nodeResolver (fun c _ => if c = "a/b.x" then some "/r/b.x" else none)
        [".x"] [] "a/b" "").1 = ⟨some "/r/b.x", none⟩
      ∧ (nodeResolver (fun c _ => if c = "a/b.x" then some "/r/b.x" else none)
          [".x"]
          (nodeResolver (fun c _ => if c = "a/b.x" then some "/r/b.x" else none)
            [".x"] [] "a/b" "").2
          "a/b" "").1 = ⟨none, some ""⟩ := by
  have h := resolver_dedupe (fun c _ => if c = "a/b.x" then some "/r/b.x" else none)
    [".x"] [] "a/b" "" "a/b" "" (by decide) rfl
  have hv : resolveUrl (fun c _ => if c = "a/b.x" then some "/r/b.x" else none)
      [".x"] "a/b" "" = "/r/b.x" := by decide
  exact ⟨by rw [h.1, hv], h.2⟩

/-- C8: when every resolution candidate fails (each per-candidate error is
caught silently), the resolver raises nothing and hands the unresolved
specifier back as the file reference; the marker-stripping hypothesis holds
in particular for every scoped @-specifier. -/
theorem resolver_all_candidates_fail (f : String → String → Option String)
    (exts : List String) (resolved : List String) (url prev : String)
    (h0 : stripTilde url = url)
    (h1 : ∀ c ∈ candidates exts url, f c prev = none)
    (h2 : url ∉ resolved) :
    (nodeResolver f exts resolved url prev).1 = ⟨some url, none⟩ := by
  have hru : resolveUrl f exts url prev = url := by
    unfold resolveUrl
    rw [h0]
    exact resolveLoop_all_fail f prev (candidates exts url) url h1
  rw [nodeResolver_eq, hru, if_neg h2]

/-- Witness for C8: an @-specifier none of whose candidates resolves. -/
theorem resolver_all_candidates_fail_witness :
    (nodeResolver (fun _ _ => none) [".scss"] [] "@scope/pkg" "p").1
      = ⟨some "@scope/pkg", none⟩ :=
  resolver_all_candidates_fail (fun _ _ => none) [".scss"] [] "@scope/pkg" "p"
    (by decide) (fun c _ => rfl) (by decide)

/-- C2, counterexample: a bare extensionless import such as `foo` is a
single-segment url, so the resolver checks it as-is and never expands the
stylesheet extensions at all; and when the expansion does run (for a url
with a directory part), all plain candidates come before all underscore-led
partial candidates, so the partial form does not follow its plain
counterpart immediately. -/
theorem candidates_paired_order_counterexample :
    candidates [".a", ".b"] "foo" = ["foo"]
      ∧ ¬ ("foo.a" ∈ candidates [".a", ".b"] "foo")
      ∧ candidates [".a", ".b"] "d/f" = ["d/f.a", "d/f.b", "d/_f.a", "d/_f.b"]
      ∧ (candidates [".a", ".b"] "d/f")[1]? ≠ some "d/_f.a" := by decide

/-- C2, amended: for an extensionless import with a directory part (more
than one slash-separated segment and not a two-segment scoped package name)
whose basename is not already underscore-led, the resolver tries one
candidate per configured stylesheet extension and also the underscore-led
partial form of each, but with every plain candidate first and every partial
candidate after them, in the same extension order — not in paired order; a
bare single-segment import is tried as-is only. -/
theorem candidates_extensions_blocked_order (exts : List String) (url : String)
    (h1 : segCount url ≠ 1)
    (h2 : ¬ (firstChar url = some '@' ∧ segCount url = 2))
    (h3 : extname url = "")
    (h4 : firstChar (basename url) ≠ some '_') :
    candidates exts url
      = exts.map (fun e => url ++ e)
        ++ exts.map (fun e => join2 (dirname (url ++ e)) ("_" ++ basename (url ++ e))) := by
  unfold candidates
  rw [if_neg h1, if_neg h2]
  unfold alternatives
  dsimp only
  rw [if_pos h4]
  rw [if_neg (show ¬ (extname url ≠ "") by simp [h3])]
  rw [List.map_map]
  rfl

/-- Witness for C2 amended at a concrete two-segment import. -/
theorem candidates_extensions_blocked_order_witness :
    candidates [".a", ".b"] "d/f"
      = [".a", ".b"].map (fun e => "d/f" ++ e)
        ++ [".a", ".b"].map
          (fun e => join2 (dirname ("d/f" ++ e)) ("_" ++ basename ("d/f" ++ e))) :=
  candidates_extensions_blocked_order [".a", ".b"] "d/f"
    (by decide) (by decide) (by decide) (by decide)

/-! ## Query-string lemmas -/

theorem splitOnChar_ne_nil (sep : Char) (l : List Char) : splitOnChar sep l ≠ [] := by
  induction l with
  | nil => simp [splitOnChar]
  | cons c cs ih =>
    unfold splitOnChar
    by_cases h : c = sep
    · simp [h]
    · cases hs : splitOnChar sep cs <;> simp [h, hs]

theorem splitOnChar_head_takeWhile (sep : Char) (l : List Char) :
    ∃ t, splitOnChar sep l = (l.takeWhile (fun c => c ≠ sep)) :: t := by
  induction l with
  | nil => exact ⟨[], rfl⟩
  | cons c cs ih =>
    by_cases h : c = sep
    · exact ⟨splitOnChar sep cs, by simp [splitOnChar, h, List.takeWhile_cons]⟩
    · obtain ⟨t, ht⟩ := ih
      exact ⟨t, by simp [splitOnChar, h, ht, List.takeWhile_cons]⟩

theorem splitOnChar_append_sep (sep : Char) (a b : List Char) :
    splitOnChar sep (a ++ sep :: b) = splitOnChar sep a ++ splitOnChar sep b := by
  induction a with
  | nil => simp [splitOnChar]
  | cons c cs ih =>
    by_cases h : c = sep
    · simp [splitOnChar, h, ih]
    · have hne := splitOnChar_ne_nil sep cs
      cases hs : splitOnChar sep cs with
      | nil => exact absurd hs hne
      | cons p ps => simp [splitOnChar, h, ih, hs]

theorem afterChar_append (sep : Char) (a b : List Char) :
    afterChar sep (a ++ b)
      = (match afterChar sep a with
          | some r => some (r ++ b)
          | none => afterChar sep b) := by
  induction a with
  | nil => rfl
  | cons c cs ih => by_cases h : c = sep <;> simp [afterChar, h, ih]

theorem afterChar_none_of_no_char (sep : Char) (a : List Char)
    (h : hasCharL sep a = false) : afterChar sep a = none := by
  induction a with
  | nil => rfl
  | cons c cs ih =>
    unfold hasCharL at h
    rw [List.any_cons] at h
    simp only [Bool.or_eq_false_iff] at h
    have h2 : hasCharL sep cs = false := h.2
    have h1 : ¬ c = sep := by simpa using h.1
    simp [afterChar, h1, ih h2]

theorem afterChar_some_of_hasChar (sep : Char) (a : List Char)
    (h : hasCharL sep a = true) : ∃ r, afterChar sep a = some r := by
  induction a with
  | nil => cases h
  | cons c cs ih =>
    by_cases hc : c = sep
    · exact ⟨cs, by simp [afterChar, hc]⟩
    · have h2 : hasCharL sep cs = true := by
        unfold hasCharL at h ⊢
        rw [List.any_cons] at h
        simpa [hc] using h
      obtain ⟨r, hr⟩ := ih h2
      exact ⟨r, by simp [afterChar, hc, hr]⟩

theorem takeWhile_append_of_all {α : Type} (p : α → Bool) (a b : List α)
    (h : ∀ x ∈ a, p x = true) :
    (a ++ b).takeWhile p = a ++ b.takeWhile p := by
  induction a with
  | nil => rfl
  | cons c cs ih =>
    have hc := h c (List.mem_cons_self c cs)
    simp [List.takeWhile_cons, hc,
      ih (fun x hx => h x (List.mem_cons_of_mem c hx))]

/-- A query segment list obtained from `name=value` followed by anything has
a segment whose key is `name`. -/
theorem any_key_of_split (n v : List Char) (hn1 : ('&' : Char) ∉ n)
    (hn2 : ('=' : Char) ∉ n) :
    (splitOnChar '&' (n ++ '=' :: v)).any (fun p => paramKey p = n) = true := by
  obtain ⟨t, ht⟩ := splitOnChar_head_takeWhile '&' (n ++ '=' :: v)
  have htw : (n ++ '=' :: v).takeWhile (fun c => c ≠ '&')
      = n ++ '=' :: v.takeWhile (fun c => c ≠ '&') := by
    rw [takeWhile_append_of_all _ n _ (fun x hx => by
      simp
      exact fun hx2 => hn1 (hx2 ▸ hx))]
    simp [List.takeWhile_cons]
  have hkey : paramKey ((n ++ '=' :: v).takeWhile (fun c => c ≠ '&')) = n := by
    rw [htw]
    unfold paramKey
    rw [takeWhile_append_of_all _ n _ (fun x hx => by
      simp
      exact fun hx2 => hn2 (hx2 ▸ hx))]
    simp [List.takeWhile_cons]
  rw [ht, List.any_cons]
  simp only [hkey]
  simp

/-- Appending a clean `name=value` marker makes the parameter discoverable:
the core of the idempotence of the file marker. -/
theorem hasParam_appendParam (s n v : List Char) (hn1 : ('&' : Char) ∉ n)
    (hn2 : ('=' : Char) ∉ n) :
    hasParamL (appendParamL s n v) n = true := by
  unfold appendParamL hasParamL
  cases hq : hasCharL '?' s with
  | false =>
    rw [if_neg (by simp [hq])]
    have he : s ++ ['?'] ++ n ++ '=' :: v = s ++ '?' :: (n ++ '=' :: v) := by simp
    have hA : afterChar '?' (s ++ ['?'] ++ n ++ '=' :: v) = some (n ++ '=' :: v) := by
      rw [he, afterChar_append, afterChar_none_of_no_char '?' s hq]
      simp [afterChar]
    rw [hA]
    exact any_key_of_split n v hn1 hn2
  | true =>
    rw [if_pos (by simp [hq])]
    obtain ⟨q, hqeq⟩ := afterChar_some_of_hasChar '?' s hq
    have he : s ++ ['&'] ++ n ++ '=' :: v = s ++ '&' :: (n ++ '=' :: v) := by simp
    have hA : afterChar '?' (s ++ ['&'] ++ n ++ '=' :: v)
        = some (q ++ '&' :: (n ++ '=' :: v)) := by
      rw [he, afterChar_append, hqeq]
    rw [hA]
    show (splitOnChar '&' (q ++ '&' :: (n ++ '=' :: v))).any (fun p => paramKey p = n) = true
    rw [splitOnChar_append_sep, List.any_append, any_key_of_split n v hn1 hn2]
    simp

/-- Appending any further marker keeps every already discoverable parameter
discoverable. -/
theorem hasParam_appendParam_mono (s n2 v2 n : List Char)
    (h : hasParamL s n = true) :
    hasParamL (appendParamL s n2 v2) n = true := by
  unfold hasParamL at h
  cases hqeqc : afterChar '?' s with
  | none => rw [hqeqc] at h; cases h
  | some q =>
    rw [hqeqc] at h
    have hq : hasCharL '?' s = true := by
      cases hc : hasCharL '?' s with
      | true => rfl
      | false => rw [afterChar_none_of_no_char '?' s hc] at hqeqc; cases hqeqc
    unfold appendParamL hasParamL
    rw [if_pos (by simp [hq])]
    have he : s ++ ['&'] ++ n2 ++ '=' :: v2 = s ++ '&' :: (n2 ++ '=' :: v2) := by simp
    have hA : afterChar '?' (s ++ ['&'] ++ n2 ++ '=' :: v2)
        = some (q ++ '&' :: (n2 ++ '=' :: v2)) := by
      rw [he, afterChar_append, hqeqc]
    rw [hA]
    have h2 : (splitOnChar '&' q).any (fun p => paramKey p = n) = true := h
    show (splitOnChar '&' (q ++ '&' :: (n2 ++ '=' :: v2))).any (fun p => paramKey p = n) = true
    rw [splitOnChar_append_sep, List.any_append, h2]
    simp

/-- The exact growth of a path under one marker append. -/
theorem appendParamL_length (s n v : List Char) :
    (appendParamL s n v).length = s.length + 1 + n.length + 1 + v.length := by
  unfold appendParamL
  cases hasCharL '?' s <;> simp <;> omega

/-! ## Claim theorems for the emit markers -/

/-- C6: applying `emitFile` to a path that already carries an `emit` search
parameter returns the path unchanged, so `emitFile` is idempotent. -/
theorem emitFile_idempotent : ∀ p : String,
    (hasSearchParam p "emit" = true → emitFile p = p)
      ∧ emitFile (emitFile p) = emitFile p := by
  intro p
  have hbranch : ∀ q : String, hasSearchParam q "emit" = true → emitFile q = q := by
    intro q h
    unfold emitFile
    rw [if_pos h]
  refine ⟨hbranch p, ?_⟩
  by_cases h : hasSearchParam p "emit" = true
  · rw [hbranch p h, hbranch p h]
  · have h1 : emitFile p = appendSearchParam p "emit" "file" := by
      unfold emitFile
      rw [if_neg h]
    have hB : hasSearchParam (appendSearchParam p "emit" "file") "emit" = true := by
      unfold hasSearchParam appendSearchParam
      exact hasParam_appendParam p.data "emit".data "file".data (by decide) (by decide)
    rw [h1, hbranch _ hB]

/-- Witness for C6 at a path already carrying the file marker. -/
theorem emitFile_idempotent_witness :
    hasSearchParam "a.css?emit=file" "emit" = true
      ∧ emitFile "a.css?emit=file" = "a.css?emit=file" :=
  ⟨by decide, (emitFile_idempotent "a.css?emit=file").1 (by decide)⟩

/-- C10: `emitChunk` appends its `emit=chunk` and `transform` markers
unconditionally — both parameters are present afterwards, the source always
grows by the two markers, and, unlike the file marker, applying `emitChunk`
twice keeps growing the path, so it is not idempotent. -/
theorem emitChunk_not_idempotent : ∀ source options : String,
    hasSearchParam (emitChunk source options) "emit" = true
      ∧ hasSearchParam (emitChunk source options) "transform" = true
      ∧ (emitChunk source options).data.length
          = source.data.length + 22 + options.data.length
      ∧ emitChunk source options ≠ source
      ∧ emitChunk (emitChunk source options) options ≠ emitChunk source options := by
  intro s o
  have hlen : ∀ t w : String, (emitChunk t w).data.length = t.data.length + 22 + w.data.length := by
    intro t w
    show (appendParamL (appendParamL t.data "emit".data "chunk".data)
      "transform".data w.data).length = t.data.length + 22 + w.data.length
    rw [appendParamL_length, appendParamL_length]
    have h1 : ("emit".data).length = 4 := by decide
    have h2 : ("chunk".data).length = 5 := by decide
    have h3 : ("transform".data).length = 9 := by decide
    omega
  refine ⟨?_, ?_, hlen s o, ?_, ?_⟩
  · show hasParamL (appendParamL (appendParamL s.data "emit".data "chunk".data)
      "transform".data o.data) "emit".data = true
    exact hasParam_appendParam_mono _ _ _ _
      (hasParam_appendParam s.data "emit".data "chunk".data (by decide) (by decide))
  · show hasParamL (appendParamL (appendParamL s.data "emit".data "chunk".data)
      "transform".data o.data) "transform".data = true
    exact hasParam_appendParam _ "transform".data o.data (by decide) (by decide)
  · intro hcontra
    have := congrArg (fun q : String => q.data.length) hcontra
    simp only at this
    rw [hlen s o] at this
    omega
  · intro hcontra
    have := congrArg (fun q : String => q.data.length) hcontra
    simp only at this
    rw [hlen (emitChunk s o) o] at this
    omega

/-! ## Output selection lemmas -/

/-- Searching a filtered list is searching the original list with the
conjoined predicate. -/
theorem find?_filter_comb {α : Type} (l : List α) (p q : α → Bool) :
    (l.filter p).find? q = l.find? (fun a => p a && q a) := by
  induction l with
  | nil => rfl
  | cons c cs ih =>
    simp only [List.filter_cons]
    by_cases hp : p c = true <;> by_cases hq : q c = true <;>
      simp [List.find?, hp, hq, ih]

/-- C1: given metafile outputs with non-empty keys, the emit-chunk load hook
selects, among the outputs that do not end in `.map` and report an entry
point, the first whose entry point resolves to the loaded path, and falls
back to the first listed output key when none matches — the
specification-worded selection rule. -/
theorem chunk_output_selection (resolve : String → String)
    (outputs : List (String × OutputMeta)) (filePath : String)
    (hk : ∀ pr ∈ outputs, pr.1 ≠ "") :
    selectOutput resolve outputs filePath = specSelectOutput resolve outputs filePath := by
  unfold selectOutput specSelectOutput
  dsimp only
  rw [find?_filter_comb, find?_filter_comb]
  simp only [Bool.and_assoc]
  cases hf : (outputs.map Prod.fst).find?
      (fun o => !(endsWithS o ".map")
        && (truthyEP (epOf outputs o) && epMatches resolve outputs filePath o)) with
  | none => simp [jsOrStr, hf]
  | some r =>
    have hmem : r ∈ outputs.map Prod.fst := List.mem_of_find?_eq_some hf
    obtain ⟨pr, hpr, hpr2⟩ := List.mem_map.mp hmem
    have hne : r ≠ "" := hpr2 ▸ hk pr hpr
    simp [jsOrStr, hf, hne]

/-- Witness for C1 at a concrete metafile with a matching entry point and a
map companion output. -/
theorem chunk_output_selection_witness :
    selectOutput (fun s => "/p/" ++ s)
        [("out/a.js", ⟨some "src/a.ts"⟩), ("out/a.js.map", ⟨none⟩)] "/p/src/a.ts"
        = specSelectOutput (fun s => "/p/" ++ s)
          [("out/a.js", ⟨some "src/a.ts"⟩), ("out/a.js.map", ⟨none⟩)] "/p/src/a.ts"
      ∧ selectOutput (fun s => "/p/" ++ s)
          [("out/a.js", ⟨some "src/a.ts"⟩), ("out/a.js.map", ⟨none⟩)] "/p/src/a.ts"
        = some "out/a.js" :=
  ⟨chunk_output_selection (fun s => "/p/" ++ s)
      [("out/a.js", ⟨some "src/a.ts"⟩), ("out/a.js.map", ⟨none⟩)] "/p/src/a.ts"
      (by decide),
    by decide⟩

end Rna
